import Mathlib

/-!
Verification of the `CompositeWeakMap` implementation (composite-weak-map.ts).

The embedding models the map's heap structures as insertion-ordered
association lists (JavaScript `Map` / `WeakMap` iterate and overwrite in
insertion order) and JavaScript `Set`s as duplicate-free insertion-ordered
lists.  Partial keys, composite keys, finalization registries and
unregister tokens are all plain JavaScript objects compared by identity;
each kind is modelled as a `Nat` identity, with fresh-object creation
(`{}` literals, `new FinalizationRegistry`) modelled by counters carried in
the state.  Garbage collection of a partial key and the resulting
finalization callbacks are modelled by an explicit `collectKey` step; the
set of already-collected keys is passed explicitly so that `WeakRef.deref`
can be interpreted.
-/

namespace CompositeWeakMap

/-- Partial keys are caller-owned objects compared by identity; modelled as
`Nat` identities. -/
abbrev PartialKey := Nat

/-- A composite key is an empty object `{}` minted per distinct binding and
compared by identity; modelled as a `Nat` identity. -/
abbrev CompositeKey := Nat

/-- The position of a partial key in a key array: the source renders the pair
(1-based index, length of key array) as the string `"i/n"`; that rendering is
injective on pairs of naturals, so we model the descriptor as the pair. -/
abbrev PartialKeyPos := Nat × Nat

/-- Payload held by a finalization registration (source `FinalizationData`):
a weak reference to a partial key, that key's position descriptor in the
composite key, and the unregister token tying the group together.  The weak
reference is modelled by the key's identity; dereferencing consults the set
of collected keys. -/
structure FinalizationData where
  partialKeyRef : PartialKey
  partialKeyPos : PartialKeyPos
  unregisterToken : Nat
deriving DecidableEq

/-- One pending `FinalizationRegistry.register` registration: the registry it
lives in, the target object whose collection fires it, and the held payload. -/
structure Watch where
  registry : Nat
  target : PartialKey
  data : FinalizationData
deriving DecidableEq

/-- The full state of one `CompositeWeakMap` instance.

`compositeKeyMap` and `resultMap` are the two fields of the class.
`registries` is the strong `Set` of in-flight `FinalizationRegistry` objects
(identified by identity).  `regKey` records, for each registry, the
`compositeKey` captured by its cleanup-callback closure.  `watches` is the
list of pending finalization registrations across all registries.  The
`next*` counters mint fresh object identities (`{}` literals for composite
keys and unregister tokens, `new FinalizationRegistry` for registries). -/
structure MapState (α : Type) where
  compositeKeyMap : List (PartialKey × List (PartialKeyPos × List CompositeKey))
  resultMap : List (CompositeKey × α)
  registries : List Nat
  regKey : List (Nat × CompositeKey)
  watches : List Watch
  nextCompositeKey : Nat
  nextRegistry : Nat
  nextToken : Nat
deriving DecidableEq

/-- A freshly constructed `CompositeWeakMap`. -/
def emptyMap (α : Type) : MapState α :=
  ⟨[], [], [], [], [], 0, 0, 0⟩

/-- JavaScript `Map.prototype.get` / `WeakMap.prototype.get` on an
insertion-ordered association list. -/
def jsMapGet {κ ν : Type} [DecidableEq κ] (m : List (κ × ν)) (k : κ) : Option ν :=
  (m.find? (fun p => decide (p.1 = k))).map (fun p => p.2)

/-- JavaScript `Map.prototype.set` / `WeakMap.prototype.set`: overwrite in
place if the key is present, otherwise append. -/
def jsMapSet {κ ν : Type} [DecidableEq κ] (m : List (κ × ν)) (k : κ) (v : ν) :
    List (κ × ν) :=
  match m with
  | [] => [(k, v)]
  | (k1, v1) :: rest =>
      if k1 = k then (k, v) :: rest else (k1, v1) :: jsMapSet rest k v

/-- JavaScript `Map.prototype.delete` / `WeakMap.prototype.delete` (the
association lists built by `jsMapSet` never repeat a key, so filtering out
the key removes exactly the one entry). -/
def jsMapDelete {κ ν : Type} [DecidableEq κ] (m : List (κ × ν)) (k : κ) :
    List (κ × ν) :=
  m.filter (fun p => decide (p.1 ≠ k))

/-- JavaScript `Set.prototype.add`: append if absent. -/
def jsSetAdd {χ : Type} [DecidableEq χ] (s : List χ) (x : χ) : List χ :=
  if x ∈ s then s else s ++ [x]

/-- JavaScript `Set.prototype.delete`. -/
def jsSetDelete {χ : Type} [DecidableEq χ] (s : List χ) (x : χ) : List χ :=
  s.filter (fun y => decide (y ≠ x))

/-- Source `createPartialKeyPosition`: 1-based index paired with the total
size (the source renders this pair as the string `"i/n"`). -/
def createPartialKeyPosition (index size : Nat) : PartialKeyPos :=
  (index + 1, size)

/-- Source helper `minimum`, after destructuring `[first, ...rest]`: walk the
rest keeping the first element whose selector value is strictly smaller than
the current minimum (ties keep the earlier element). -/
def minimumAux {σ : Type} (sel : σ → Nat) : σ → Nat → List σ → σ
  | cur, _, [] => cur
  | cur, curCount, v :: rest =>
      if sel v < curCount then minimumAux sel v (sel v) rest
      else minimumAux sel cur curCount rest

/-- Source helper `remove`: `findIndex` the value, then `splice(index, 1)`.
`Array.prototype.splice` returns the array of *extracted* elements, so this
returns the one-element array holding the removed value (the enclosing
array is mutated in place but the caller only uses the return value).  The
source throws when the value is absent; callers always pass a member, and we
return `[]` on that unreachable path. -/
def removeJs {χ : Type} [DecidableEq χ] (array : List χ) (value : χ) : List χ :=
  match array.findIdx? (fun v => decide (v = value)) with
  | none => []
  | some index => [array.getD index value]

/-- The candidate composite-key set fetched for one partial key at one
position descriptor: `compositeKeyMap.get(key)` defaulting to an empty map,
then `.get(partialKeyPos)` defaulting to an empty set. -/
def lookupCand {α : Type} (s : MapState α) (key : PartialKey)
    (pos : PartialKeyPos) : List CompositeKey :=
  (jsMapGet ((jsMapGet s.compositeKeyMap key).getD []) pos).getD []

/-- The per-key candidate fetch loop of `getCompositeKey`: for the key at
0-based index `keyIndex` fetch the candidate set registered under descriptor
`(keyIndex + 1, size)` (the source writes this as two `.map` passes over the
key array, carrying the element index). -/
def fetchCands {α : Type} (s : MapState α) (size : Nat) :
    Nat → List PartialKey → List (List CompositeKey)
  | _, [] => []
  | keyIndex, key :: rest =>
      lookupCand s key (createPartialKeyPosition keyIndex size)
        :: fetchCands s size (keyIndex + 1) rest

/-- Source `getCompositeKey`: fetch each key's candidate set, pick the
smallest fetched set (`minimum`; first occurrence on ties), `remove` it from
the array of candidate sets, and return the first of its elements contained
in every set of `remove`'s result.  (The source `minimum` throws on an empty
array; that happens only for an empty key tuple, which every public caller
has already rejected, and is modelled as a not-found result.) -/
def getCompositeKey {α : Type} (s : MapState α) (partialKeys : List PartialKey) :
    Option CompositeKey :=
  match fetchCands s partialKeys.length 0 partialKeys with
  | [] => none
  | first :: rest =>
      let fewestPartialKeyCandidates := minimumAux List.length first first.length rest
      let remainingPartialKeysCandidates :=
        removeJs (first :: rest) fewestPartialKeyCandidates
      fewestPartialKeyCandidates.find? (fun candidateCompositeKey =>
        remainingPartialKeysCandidates.all (fun otherPartialKeyCandidates =>
          decide (candidateCompositeKey ∈ otherPartialKeyCandidates)))

/-- Source `getOrCreateCompositeKey`: reuse the resolved key, else mint a
fresh `{}` identity. -/
def getOrCreateCompositeKey {α : Type} (s : MapState α)
    (partialKeys : List PartialKey) : CompositeKey × MapState α :=
  match getCompositeKey s partialKeys with
  | some existingCompositeKey => (existingCompositeKey, s)
  | none =>
      (s.nextCompositeKey, { s with nextCompositeKey := s.nextCompositeKey + 1 })

/-- One iteration of the `for (const [index, partialKey] of
partialKeys.entries())` loop in `setCompositeKey`: install the composite key
in this key's candidate set for its position, then register a finalization
watch on every *other* (by identity) partial key, all sharing one fresh
unregister token, carrying this key's weak reference and descriptor. -/
def registerOne {α : Type} (s : MapState α) (allKeys : List PartialKey)
    (compositeKey : CompositeKey) (registry : Nat) (index : Nat)
    (partialKey : PartialKey) : MapState α :=
  let size := allKeys.length
  let partialKeyPosMap := (jsMapGet s.compositeKeyMap partialKey).getD []
  let partialKeyPos := createPartialKeyPosition index size
  let compositeKeys := (jsMapGet partialKeyPosMap partialKeyPos).getD []
  let posMap1 := jsMapSet partialKeyPosMap partialKeyPos
    (jsSetAdd compositeKeys compositeKey)
  let otherPartialKeys := allKeys.filter (fun o => decide (partialKey ≠ o))
  let unregisterToken := s.nextToken
  { s with
      compositeKeyMap := jsMapSet s.compositeKeyMap partialKey posMap1,
      watches := s.watches ++ otherPartialKeys.map (fun o =>
        ⟨registry, o, ⟨partialKey, partialKeyPos, unregisterToken⟩⟩),
      nextToken := s.nextToken + 1 }

/-- The indexed loop of `setCompositeKey` over the key array. -/
def registerLoop {α : Type} (allKeys : List PartialKey)
    (compositeKey : CompositeKey) (registry : Nat) :
    Nat → List PartialKey → MapState α → MapState α
  | _, [], s => s
  | index, partialKey :: rest, s =>
      registerLoop allKeys compositeKey registry (index + 1) rest
        (registerOne s allKeys compositeKey registry index partialKey)

/-- Source `setCompositeKey`: create one dedicated `FinalizationRegistry`
for this binding, hold it strongly in `registries` (and record the composite
key its callback closes over), then run the per-key registration loop. -/
def setCompositeKey {α : Type} (s : MapState α) (partialKeys : List PartialKey)
    (compositeKey : CompositeKey) : MapState α :=
  let finalizationRegistry := s.nextRegistry
  let s1 : MapState α :=
    { s with
        nextRegistry := s.nextRegistry + 1,
        registries := jsSetAdd s.registries finalizationRegistry,
        regKey := jsMapSet s.regKey finalizationRegistry compositeKey }
  registerLoop partialKeys compositeKey finalizationRegistry 0 partialKeys s1

/-- The single error kind of the public API. -/
inductive Err where
  | invalidArgument
deriving DecidableEq

/-- Source `assertKeysValid`: throw when no key is supplied. -/
def assertKeysValid (keys : List PartialKey) : Except Err Unit :=
  if keys.length = 0 then Except.error Err.invalidArgument else Except.ok ()

/-- Public `get`: a result value, or `none` for the `undefined` not-found
marker; the state is returned unchanged (the method performs no mutation). -/
def get {α : Type} (s : MapState α) (partialKeys : List PartialKey) :
    Except Err (Option α × MapState α) := do
  assertKeysValid partialKeys
  match getCompositeKey s partialKeys with
  | none => Except.ok (none, s)
  | some compositeKey => Except.ok (jsMapGet s.resultMap compositeKey, s)

/-- Public `set`: resolve-or-mint the composite key, register candidates and
watches, then write the value into `resultMap` (the source returns `this`;
we return the updated state). -/
def set {α : Type} (s : MapState α) (partialKeys : List PartialKey) (value : α) :
    Except Err (MapState α) := do
  assertKeysValid partialKeys
  let r := getOrCreateCompositeKey s partialKeys
  let s2 := setCompositeKey r.2 partialKeys r.1
  Except.ok { s2 with resultMap := jsMapSet s2.resultMap r.1 value }

/-- Public `has`: resolve and test `resultMap.has`. -/
def has {α : Type} (s : MapState α) (partialKeys : List PartialKey) :
    Except Err (Bool × MapState α) := do
  assertKeysValid partialKeys
  match getCompositeKey s partialKeys with
  | none => Except.ok (false, s)
  | some compositeKey =>
      Except.ok ((jsMapGet s.resultMap compositeKey).isSome, s)

/-- Public `delete`: resolve and delete the value entry, returning whether
one existed; only `resultMap` is touched. -/
def delete {α : Type} (s : MapState α) (partialKeys : List PartialKey) :
    Except Err (Bool × MapState α) := do
  assertKeysValid partialKeys
  match getCompositeKey s partialKeys with
  | none => Except.ok (false, s)
  | some compositeKey =>
      Except.ok ((jsMapGet s.resultMap compositeKey).isSome,
        { s with resultMap := jsMapDelete s.resultMap compositeKey })

/-- The cleanup callback installed in each binding's
`FinalizationRegistry` (source lines creating `new FinalizationRegistry`):
dereference the payload's weak key; if it is still live, drop the closed-over
composite key from that key's candidate set at the payload position,
unregister every registration of this registry sharing the payload's token,
and release the registry from the strong set.  `collected` lists the partial
keys already reclaimed, interpreting `WeakRef.deref`; `regKey` interprets the
callback closure's captured `compositeKey`. -/
def runCallback {α : Type} (s : MapState α) (collected : List PartialKey)
    (w : Watch) : MapState α :=
  match jsMapGet s.regKey w.registry with
  | none => s
  | some compositeKey =>
      if w.data.partialKeyRef ∈ collected then s
      else
        match jsMapGet s.compositeKeyMap w.data.partialKeyRef with
        | none => s
        | some partialKeyPosMap =>
            match jsMapGet partialKeyPosMap w.data.partialKeyPos with
            | none => s
            | some compositeKeys =>
                let posMap1 := jsMapSet partialKeyPosMap w.data.partialKeyPos
                  (jsSetDelete compositeKeys compositeKey)
                { s with
                    compositeKeyMap :=
                      jsMapSet s.compositeKeyMap w.data.partialKeyRef posMap1,
                    watches := s.watches.filter (fun w2 =>
                      decide (¬(w2.registry = w.registry ∧
                        w2.data.unregisterToken = w.data.unregisterToken))),
                    registries := jsSetDelete s.registries w.registry }

/-- Run the pending finalization callbacks whose target is the collected key
`key`, one at a time in registration order; a fired registration is no
longer pending when its callback runs, and a callback's `unregister` call
also cancels queued-but-not-yet-run callbacks.  `fuel` bounds the loop (the
pending list shrinks at every step). -/
def collectLoop {α : Type} (collected : List PartialKey) (key : PartialKey) :
    Nat → MapState α → MapState α
  | 0, s => s
  | fuel + 1, s =>
      match s.watches.find? (fun w => decide (w.target = key)) with
      | none => s
      | some w =>
          collectLoop collected key fuel
            (runCallback { s with watches := s.watches.erase w } collected w)

/-- Garbage collection of the partial key `key` (all external references
dropped): its `WeakMap` entry in `compositeKeyMap` disappears, and every
pending finalization registration targeting it fires.  `collected` lists the
keys collected earlier. -/
def collectKey {α : Type} (s : MapState α) (collected : List PartialKey)
    (key : PartialKey) : MapState α :=
  let s1 : MapState α :=
    { s with compositeKeyMap := jsMapDelete s.compositeKeyMap key }
  collectLoop (key :: collected) key s1.watches.length s1

theorem jsMapGet_set_self {κ ν : Type} [DecidableEq κ] (m : List (κ × ν)) (k : κ) (v : ν) :
    jsMapGet (jsMapSet m k v) k = some v := by
  induction m with
  | nil => simp [jsMapGet, jsMapSet, List.find?]
  | cons p rest ih =>
      obtain ⟨k1, v1⟩ := p
      by_cases h : k1 = k
      · subst h
        simp [jsMapGet, jsMapSet, List.find?]
      · simp only [jsMapSet, if_neg h]
        simpa [jsMapGet, List.find?_cons, h] using ih

theorem jsMapGet_set_ne {κ ν : Type} [DecidableEq κ] (m : List (κ × ν)) (k k2 : κ) (v : ν)
    (h : k2 ≠ k) : jsMapGet (jsMapSet m k v) k2 = jsMapGet m k2 := by
  induction m with
  | nil => simp [jsMapGet, jsMapSet, List.find?, Ne.symm h]
  | cons p rest ih =>
      obtain ⟨k1, v1⟩ := p
      by_cases hk : k1 = k
      · subst hk
        simp [jsMapGet, jsMapSet, List.find?, Ne.symm h]
      · simp only [jsMapSet, if_neg hk]
        by_cases hk2 : k1 = k2
        · subst hk2
          simp [jsMapGet, List.find?_cons]
        · simp only [jsMapGet, List.find?_cons] at ih ⊢
          simpa [hk2] using ih

theorem mem_of_jsMapGet_eq_some {κ ν : Type} [DecidableEq κ] {m : List (κ × ν)} {k : κ} {v : ν}
    (h : jsMapGet m k = some v) : (k, v) ∈ m := by
  unfold jsMapGet at h
  obtain ⟨p, hp, hmap⟩ := Option.map_eq_some'.mp h
  have hm := List.mem_of_find?_eq_some hp
  have hpk := List.find?_some hp
  simp only [decide_eq_true_eq] at hpk
  obtain ⟨p1, p2⟩ := p
  simp only at hpk hmap
  subst hpk
  subst hmap
  exact hm

theorem jsSetAdd_of_mem {χ : Type} [DecidableEq χ] {s : List χ} {x : χ}
    (h : x ∈ s) : jsSetAdd s x = s := by
  simp [jsSetAdd, h]

theorem jsSetAdd_of_not_mem {χ : Type} [DecidableEq χ] {s : List χ} {x : χ}
    (h : x ∉ s) : jsSetAdd s x = s ++ [x] := by
  simp [jsSetAdd, h]

theorem length_jsSetAdd_ge {χ : Type} [DecidableEq χ] (s : List χ) (x : χ) :
    s.length ≤ (jsSetAdd s x).length := by
  by_cases h : x ∈ s
  · simp [jsSetAdd_of_mem h]
  · simp [jsSetAdd_of_not_mem h]

/-- Running minimum of list lengths, used to characterize `minimumAux`. -/
def foldMinLen (c : Nat) (l : List (List Nat)) : Nat :=
  l.foldl (fun m x => min m x.length) c

theorem foldMinLen_cons (c : Nat) (v : List Nat) (l : List (List Nat)) :
    foldMinLen c (v :: l) = foldMinLen (min c v.length) l := rfl

theorem foldMinLen_le_init (c : Nat) (l : List (List Nat)) : foldMinLen c l ≤ c := by
  induction l generalizing c with
  | nil => exact Nat.le_refl c
  | cons v rest ih =>
      calc foldMinLen c (v :: rest) = foldMinLen (min c v.length) rest := rfl
        _ ≤ min c v.length := ih _
        _ ≤ c := Nat.min_le_left _ _

theorem foldMinLen_le_mem (c : Nat) {l : List (List Nat)} {x : List Nat}
    (h : x ∈ l) : foldMinLen c l ≤ x.length := by
  induction l generalizing c with
  | nil => cases h
  | cons v rest ih =>
      rcases List.mem_cons.mp h with h1 | h1
      · subst h1
        calc foldMinLen c (x :: rest) = foldMinLen (min c x.length) rest := rfl
          _ ≤ min c x.length := foldMinLen_le_init _ _
          _ ≤ x.length := Nat.min_le_right _ _
      · exact ih _ h1

theorem le_foldMinLen {m : Nat} {l : List (List Nat)} : ∀ {c : Nat}, m ≤ c →
    (∀ x ∈ l, m ≤ x.length) → m ≤ foldMinLen c l := by
  induction l with
  | nil => intro c h1 _; exact h1
  | cons v rest ih =>
      intro c h1 h2
      rw [foldMinLen_cons]
      exact ih (le_min h1 (h2 v (List.mem_cons_self _ _)))
        (fun x hx => h2 x (List.mem_cons_of_mem _ hx))

/-- `minimumAux` (entered with the head as current best) returns exactly the
first element of the list whose length attains the running minimum. -/
theorem minimumAux_char (l : List (List Nat)) : ∀ cur : List Nat,
    (cur :: l).find? (fun x => decide (x.length = foldMinLen cur.length l))
      = some (minimumAux List.length cur cur.length l) := by
  induction l with
  | nil =>
      intro cur
      simp [minimumAux, foldMinLen, List.find?]
  | cons v rest ih =>
      intro cur
      by_cases h : v.length < cur.length
      · have hmin : min cur.length v.length = v.length :=
          Nat.min_eq_right (Nat.le_of_lt h)
        have hM : foldMinLen cur.length (v :: rest) = foldMinLen v.length rest := by
          rw [foldMinLen_cons, hmin]
        have hlt : foldMinLen v.length rest < cur.length :=
          Nat.lt_of_le_of_lt (foldMinLen_le_init _ _) h
        have hcur : (decide (cur.length = foldMinLen v.length rest)) = false := by
          simp [Nat.ne_of_gt hlt]
        rw [hM]
        simp only [List.find?_cons, hcur]
        have := ih v
        simp only [minimumAux, if_pos h]
        exact this
      · have hle : cur.length ≤ v.length := Nat.le_of_not_lt h
        have hmin : min cur.length v.length = cur.length := Nat.min_eq_left hle
        have hM : foldMinLen cur.length (v :: rest) = foldMinLen cur.length rest := by
          rw [foldMinLen_cons, hmin]
        rw [hM]
        simp only [minimumAux, if_neg h]
        by_cases hc : cur.length = foldMinLen cur.length rest
        · have hcur : (decide (cur.length = foldMinLen cur.length rest)) = true := by
            simpa using hc
          simp only [List.find?_cons, hcur]
          have hfind := ih cur
          simp only [List.find?_cons, hcur] at hfind
          exact hfind
        · have hMlt : foldMinLen cur.length rest < cur.length :=
            Nat.lt_of_le_of_ne (foldMinLen_le_init _ _) (fun e => hc e.symm)
          have hcur : (decide (cur.length = foldMinLen cur.length rest)) = false := by
            simpa using hc
          have hv : (decide (v.length = foldMinLen cur.length rest)) = false := by
            simp only [decide_eq_false_iff_not]
            exact fun e => Nat.ne_of_gt (Nat.lt_of_lt_of_le hMlt hle) e
          simp only [List.find?_cons, hcur, hv]
          have hfind := ih cur
          simp only [List.find?_cons, hcur] at hfind
          exact hfind

theorem find?_map_of {σ : Type} (g : σ → σ) (p q : σ → Bool) :
    ∀ (l : List σ) (x : σ), l.find? p = some x → q (g x) = true →
      (∀ y ∈ l, q (g y) = true → p y = true) → (l.map g).find? q = some (g x) := by
  intro l
  induction l with
  | nil => intro x h1; cases h1
  | cons a tl ih =>
      intro x h1 h2 h3
      by_cases ha : p a = true
      · rw [List.find?_cons_of_pos _ ha] at h1
        obtain rfl : a = x := Option.some.inj h1
        simpa [List.map_cons] using List.find?_cons_of_pos (tl.map g) h2
      · have hqa : ¬ q (g a) = true := fun hq => ha (h3 a (List.mem_cons_self _ _) hq)
        rw [List.find?_cons_of_neg _ ha] at h1
        rw [List.map_cons, List.find?_cons_of_neg _ hqa]
        exact ih x h1 h2 (fun y hy => h3 y (List.mem_cons_of_mem _ hy))

theorem findIdx?_self_getD {χ : Type} [DecidableEq χ] {value : χ} :
    ∀ (l : List χ) (i : Nat), value ∈ l →
      ∃ j, l.findIdx? (fun v => decide (v = value)) i = some j ∧ i ≤ j ∧
        l.getD (j - i) value = value := by
  intro l
  induction l with
  | nil => intro i h; cases h
  | cons a tl ih =>
      intro i h
      by_cases ha : a = value
      · refine ⟨i, ?_, Nat.le_refl i, ?_⟩
        · rw [List.findIdx?_cons]
          simp [ha]
        · simp [ha]
      · have hv : value ∈ tl := by
          rcases List.mem_cons.mp h with h1 | h1
          · exact absurd h1.symm ha
          · exact h1
        obtain ⟨j, hj, hij, hget⟩ := ih (i + 1) hv
        refine ⟨j, ?_, Nat.le_of_succ_le hij, ?_⟩
        · rw [List.findIdx?_cons]
          simpa [ha] using hj
        · have : j - i = (j - (i + 1)) + 1 := by omega
          rw [this]
          simpa using hget

theorem removeJs_of_mem {χ : Type} [DecidableEq χ] {array : List χ} {value : χ}
    (h : value ∈ array) : removeJs array value = [value] := by
  obtain ⟨j, hj, _, hget⟩ := findIdx?_self_getD array 0 h
  unfold removeJs
  rw [hj]
  simpa using hget

theorem find?_of_all_true {σ : Type} (p : σ → Bool) :
    ∀ l : List σ, (∀ y ∈ l, p y = true) → l.find? p = l.head? := by
  intro l h
  cases l with
  | nil => rfl
  | cons a tl => exact List.find?_cons_of_pos _ (h a (List.mem_cons_self _ _))

theorem minimumAux_mem (l : List (List Nat)) (cur : List Nat) :
    minimumAux List.length cur cur.length l ∈ cur :: l :=
  List.mem_of_find?_eq_some (minimumAux_char l cur)

theorem minimumAux_len (l : List (List Nat)) (cur : List Nat) :
    (minimumAux List.length cur cur.length l).length = foldMinLen cur.length l := by
  have h := List.find?_some (minimumAux_char l cur)
  simpa using h

/-- With a non-empty key tuple, `getCompositeKey` returns exactly the head of
the smallest fetched candidate set: `remove` hands back the one-element array
containing the pivot set itself, so the membership test succeeds for every
pivot element and `find` stops at the first. -/
theorem getCompositeKey_eq_head {α : Type} (s : MapState α) (keys : List PartialKey)
    (first : List CompositeKey) (rest : List (List CompositeKey))
    (hfetch : fetchCands s keys.length 0 keys = first :: rest) :
    getCompositeKey s keys = (minimumAux List.length first first.length rest).head? := by
  unfold getCompositeKey
  rw [hfetch]
  dsimp only
  have hmem : minimumAux List.length first first.length rest ∈ first :: rest :=
    minimumAux_mem rest first
  rw [removeJs_of_mem hmem]
  apply find?_of_all_true
  intro y hy
  simp only [List.all_cons, List.all_nil, Bool.and_true]
  simpa using hy

theorem lookupCand_registerOne {α : Type} (s : MapState α) (allKeys : List PartialKey)
    (ck : CompositeKey) (r i : Nat) (pk : PartialKey) (j : Nat) (k : PartialKey) :
    lookupCand (registerOne s allKeys ck r i pk) k
        (createPartialKeyPosition j allKeys.length) =
      if j = i ∧ k = pk then
        jsSetAdd (lookupCand s k (createPartialKeyPosition j allKeys.length)) ck
      else lookupCand s k (createPartialKeyPosition j allKeys.length) := by
  by_cases hk : k = pk
  · subst hk
    by_cases hj : j = i
    · subst hj
      simp only [lookupCand, registerOne, jsMapGet_set_self, Option.getD_some, and_self,
        if_true]
    · have hpos : createPartialKeyPosition j allKeys.length ≠
          createPartialKeyPosition i allKeys.length := by
        simp [createPartialKeyPosition]
        omega
      simp only [lookupCand, registerOne, jsMapGet_set_self, Option.getD_some,
        jsMapGet_set_ne _ _ _ _ hpos, hj, false_and, if_neg, and_true]
      simp [hj]
  · have hfalse : ¬ (j = i ∧ k = pk) := fun h => hk h.2
    simp only [lookupCand, registerOne, jsMapGet_set_ne _ _ _ _ hk, if_neg hfalse]

theorem lookupCand_registerLoop {α : Type} (allKeys : List PartialKey)
    (ck : CompositeKey) (r : Nat) (j : Nat) (k : PartialKey) :
    ∀ (rest : List PartialKey) (i0 : Nat) (s : MapState α),
      lookupCand (registerLoop allKeys ck r i0 rest s) k
          (createPartialKeyPosition j allKeys.length) =
        if i0 ≤ j ∧ rest.get? (j - i0) = some k then
          jsSetAdd (lookupCand s k (createPartialKeyPosition j allKeys.length)) ck
        else lookupCand s k (createPartialKeyPosition j allKeys.length) := by
  intro rest
  induction rest with
  | nil =>
      intro i0 s
      simp [registerLoop, List.get?]
  | cons pk tl ih =>
      intro i0 s
      simp only [registerLoop]
      rw [ih (i0 + 1) (registerOne s allKeys ck r i0 pk)]
      rw [lookupCand_registerOne]
      by_cases hji : j = i0
      · subst hji
        have h1 : ¬ (j + 1 ≤ j) := by omega
        simp only [h1, false_and, if_false, Nat.sub_self, Nat.le_refl, true_and]
        by_cases hk : k = pk
        · subst hk
          simp [List.get?]
        · simp only [hk, and_false, if_false, List.get?]
          simp [Ne.symm hk]
      · by_cases hlt : j < i0
        · have h1 : ¬ (i0 ≤ j) := by omega
          have h2 : ¬ (i0 + 1 ≤ j) := by omega
          simp [h1, h2, hji]
        · have hgt : i0 < j := by omega
          have h1 : i0 ≤ j := by omega
          have h2 : i0 + 1 ≤ j := by omega
          have h3 : j - i0 = (j - (i0 + 1)) + 1 := by omega
          simp only [hji, false_and, if_false, h1, h2, true_and, h3, List.get?]

theorem registerLoop_frame {α : Type} (allKeys : List PartialKey)
    (ck : CompositeKey) (r : Nat) :
    ∀ (rest : List PartialKey) (i0 : Nat) (s : MapState α),
      (registerLoop allKeys ck r i0 rest s).resultMap = s.resultMap ∧
      (registerLoop allKeys ck r i0 rest s).registries = s.registries ∧
      (registerLoop allKeys ck r i0 rest s).regKey = s.regKey ∧
      (registerLoop allKeys ck r i0 rest s).nextCompositeKey = s.nextCompositeKey ∧
      (registerLoop allKeys ck r i0 rest s).nextRegistry = s.nextRegistry := by
  intro rest
  induction rest with
  | nil => intro i0 s; simp [registerLoop]
  | cons pk tl ih =>
      intro i0 s
      simp only [registerLoop]
      exact ih (i0 + 1) (registerOne s allKeys ck r i0 pk)

/-- The watches created by the registration loop, described directly: one
fresh token per loop iteration (position), one watch per *other* (by
identity) key of the tuple, carrying the iteration's key, its descriptor
and that token. -/
def watchesSpec (allKeys : List PartialKey) (r : Nat) :
    List PartialKey → Nat → Nat → List Watch
  | [], _, _ => []
  | k :: rest, i, t =>
      (allKeys.filter (fun o => decide (k ≠ o))).map (fun o =>
        ⟨r, o, ⟨k, createPartialKeyPosition i allKeys.length, t⟩⟩)
        ++ watchesSpec allKeys r rest (i + 1) (t + 1)

theorem registerLoop_watches {α : Type} (allKeys : List PartialKey)
    (ck : CompositeKey) (r : Nat) :
    ∀ (rest : List PartialKey) (i0 : Nat) (s : MapState α),
      (registerLoop allKeys ck r i0 rest s).watches =
        s.watches ++ watchesSpec allKeys r rest i0 s.nextToken := by
  intro rest
  induction rest with
  | nil => intro i0 s; simp [registerLoop, watchesSpec]
  | cons pk tl ih =>
      intro i0 s
      simp only [registerLoop, watchesSpec]
      rw [ih (i0 + 1) (registerOne s allKeys ck r i0 pk)]
      simp [registerOne, List.append_assoc]

theorem fetchCands_eq_of_ckm {α : Type} {s1 s2 : MapState α}
    (h : s1.compositeKeyMap = s2.compositeKeyMap) (n : Nat) :
    ∀ (seg : List PartialKey) (i : Nat),
      fetchCands s1 n i seg = fetchCands s2 n i seg := by
  intro seg
  induction seg with
  | nil => intro i; rfl
  | cons key tl ih =>
      intro i
      simp only [fetchCands, lookupCand, h]
      rw [ih (i + 1)]

theorem fetchCands_registerLoop {α : Type} (keys : List PartialKey)
    (ck : CompositeKey) (r : Nat) (s : MapState α) :
    ∀ (seg : List PartialKey) (i : Nat),
      (∀ m k2, seg.get? m = some k2 → keys.get? (i + m) = some k2) →
      fetchCands (registerLoop keys ck r 0 keys s) keys.length i seg =
        (fetchCands s keys.length i seg).map (fun l => jsSetAdd l ck) := by
  intro seg
  induction seg with
  | nil => intro i _; rfl
  | cons key tl ih =>
      intro i hsub
      have hkey : keys.get? i = some key := by
        have := hsub 0 key (by simp [List.get?])
        simpa using this
      simp only [fetchCands, List.map_cons]
      have h1 : lookupCand (registerLoop keys ck r 0 keys s) key
          (createPartialKeyPosition i keys.length) =
          jsSetAdd (lookupCand s key (createPartialKeyPosition i keys.length)) ck := by
        rw [lookupCand_registerLoop]
        exact if_pos (by simpa using hkey)
      rw [h1, ih (i + 1) (fun m k2 hm => by
        have := hsub (m + 1) k2 (by simpa [List.get?] using hm)
        simpa [Nat.add_assoc, Nat.add_comm 1 m] using this)]

/-- Every composite key recorded anywhere in the candidate index is below the
fresh-identity counter: the well-formedness invariant of reachable states. -/
def goodState {α : Type} (s : MapState α) : Bool :=
  s.compositeKeyMap.all (fun p => p.2.all (fun q => q.2.all (fun c =>
    decide (c < s.nextCompositeKey))))

theorem lookupCand_lt_of_goodState {α : Type} {s : MapState α}
    (hg : goodState s = true) (k : PartialKey) (pos : PartialKeyPos) :
    ∀ c ∈ lookupCand s k pos, c < s.nextCompositeKey := by
  intro c hc
  unfold lookupCand at hc
  match h1 : jsMapGet s.compositeKeyMap k with
  | none => rw [h1] at hc; simp [jsMapGet] at hc
  | some pm =>
      rw [h1] at hc
      simp only [Option.getD_some] at hc
      match h2 : jsMapGet pm pos with
      | none => rw [h2] at hc; simp at hc
      | some cl =>
          rw [h2] at hc
          simp only [Option.getD_some] at hc
          have hm1 := mem_of_jsMapGet_eq_some h1
          have hm2 := mem_of_jsMapGet_eq_some h2
          unfold goodState at hg
          rw [List.all_eq_true] at hg
          have h3 := hg (k, pm) hm1
          rw [List.all_eq_true] at h3
          have h4 := h3 (pos, cl) hm2
          rw [List.all_eq_true] at h4
          have h5 := h4 c hc
          simpa using h5

theorem fetchCands_lt_of_goodState {α : Type} {s : MapState α}
    (hg : goodState s = true) (n : Nat) :
    ∀ (seg : List PartialKey) (i : Nat) (x : List CompositeKey),
      x ∈ fetchCands s n i seg → ∀ c ∈ x, c < s.nextCompositeKey := by
  intro seg
  induction seg with
  | nil => intro i x hx; cases hx
  | cons key tl ih =>
      intro i x hx
      rcases List.mem_cons.mp hx with h1 | h1
      · subst h1
        exact lookupCand_lt_of_goodState hg key _
      · exact ih (i + 1) x h1

/-- Pivot selection commutes with adding one composite key to every candidate
set, provided the key is already in the winning set, or is in no set at all:
either way the same position remains the first set of minimal size. -/
theorem minimumAux_map_add (first : List Nat) (rest : List (List Nat)) (ck M : Nat)
    (hM : foldMinLen first.length rest = M)
    (hcase : ck ∈ minimumAux List.length first first.length rest ∨
      (∀ x ∈ first :: rest, ck ∉ x)) :
    minimumAux List.length (jsSetAdd first ck) (jsSetAdd first ck).length
        (rest.map (fun l => jsSetAdd l ck)) =
      jsSetAdd (minimumAux List.length first first.length rest) ck := by
  have hpre := minimumAux_char rest first
  have hWlen := minimumAux_len rest first
  have hWmem := minimumAux_mem rest first
  rw [hM] at hpre hWlen
  revert hpre hWlen hWmem hcase
  generalize minimumAux List.length first first.length rest = W
  intro hcase hpre hWlen hWmem
  have hle : ∀ x : List Nat, x.length ≤ (jsSetAdd x ck).length := fun x =>
    length_jsSetAdd_ge x ck
  have hMle : ∀ y ∈ first :: rest, M ≤ y.length := by
    intro y hy
    rcases List.mem_cons.mp hy with h1 | h1
    · subst h1; rw [← hM]; exact foldMinLen_le_init _ _
    · rw [← hM]; exact foldMinLen_le_mem _ h1
  rcases hcase with hmem | hfresh
  · -- the added key is already in the winner: the running minimum is unchanged
    have hgW : jsSetAdd W ck = W := jsSetAdd_of_mem hmem
    have hMeq : foldMinLen (jsSetAdd first ck).length
        (rest.map (fun l => jsSetAdd l ck)) = M := by
      apply Nat.le_antisymm
      · rcases List.mem_cons.mp hWmem with h1 | h1
        · calc foldMinLen (jsSetAdd first ck).length
                (rest.map (fun l => jsSetAdd l ck)) ≤ (jsSetAdd first ck).length :=
              foldMinLen_le_init _ _
            _ = M := by rw [← h1, hgW, hWlen]
        · calc foldMinLen (jsSetAdd first ck).length
                (rest.map (fun l => jsSetAdd l ck)) ≤ (jsSetAdd W ck).length :=
              foldMinLen_le_mem _ (List.mem_map_of_mem (fun l => jsSetAdd l ck) h1)
            _ = M := by rw [hgW, hWlen]
      · exact le_foldMinLen
          (Nat.le_trans (hMle first (List.mem_cons_self _ _)) (hle first))
          (by
            intro y hy
            obtain ⟨x, hx, rfl⟩ := List.mem_map.mp hy
            exact Nat.le_trans (hMle x (List.mem_cons_of_mem _ hx)) (hle x))
    have himg := minimumAux_char (rest.map (fun l => jsSetAdd l ck)) (jsSetAdd first ck)
    rw [hMeq] at himg
    have hmap := find?_map_of (fun l => jsSetAdd l ck)
      (fun x => decide (x.length = M)) (fun x => decide (x.length = M))
      (first :: rest) W hpre
      (by simp only [hgW]; simp [hWlen])
      (by
        intro y hy hq
        simp only [decide_eq_true_eq] at hq ⊢
        have h1 : y.length ≤ M := hq ▸ hle y
        exact Nat.le_antisymm h1 (hMle y hy))
    rw [List.map_cons] at hmap
    rw [hmap] at himg
    exact (Option.some.inj himg).symm
  · -- the added key is fresh everywhere: every length grows by one
    have hfresh1 : ∀ x ∈ first :: rest, (jsSetAdd x ck).length = x.length + 1 := by
      intro x hx
      rw [jsSetAdd_of_not_mem (hfresh x hx)]
      simp
    have hMeq : foldMinLen (jsSetAdd first ck).length
        (rest.map (fun l => jsSetAdd l ck)) = M + 1 := by
      apply Nat.le_antisymm
      · rcases List.mem_cons.mp hWmem with h1 | h1
        · calc foldMinLen (jsSetAdd first ck).length
                (rest.map (fun l => jsSetAdd l ck)) ≤ (jsSetAdd first ck).length :=
              foldMinLen_le_init _ _
            _ = M + 1 := by
              rw [hfresh1 first (List.mem_cons_self _ _), ← h1, hWlen]
        · calc foldMinLen (jsSetAdd first ck).length
                (rest.map (fun l => jsSetAdd l ck)) ≤ (jsSetAdd W ck).length :=
              foldMinLen_le_mem _ (List.mem_map_of_mem (fun l => jsSetAdd l ck) h1)
            _ = M + 1 := by rw [hfresh1 W hWmem, hWlen]
      · apply le_foldMinLen
        · rw [hfresh1 first (List.mem_cons_self _ _)]
          exact Nat.succ_le_succ (hMle first (List.mem_cons_self _ _))
        · intro y hy
          obtain ⟨x, hx, rfl⟩ := List.mem_map.mp hy
          rw [hfresh1 x (List.mem_cons_of_mem _ hx)]
          exact Nat.succ_le_succ (hMle x (List.mem_cons_of_mem _ hx))
    have himg := minimumAux_char (rest.map (fun l => jsSetAdd l ck)) (jsSetAdd first ck)
    rw [hMeq] at himg
    have hmap := find?_map_of (fun l => jsSetAdd l ck)
      (fun x => decide (x.length = M)) (fun x => decide (x.length = M + 1))
      (first :: rest) W hpre
      (by simp only [hfresh1 W hWmem, hWlen]; simp)
      (by
        intro y hy hq
        simp only [decide_eq_true_eq] at hq ⊢
        rw [hfresh1 y hy] at hq
        omega)
    rw [List.map_cons] at hmap
    rw [hmap] at himg
    exact (Option.some.inj himg).symm

/-- The successful result of a `set` call (the state the public `set` returns
inside `Except.ok` whenever the key tuple is non-empty). -/
def setOk {α : Type} (s : MapState α) (keys : List PartialKey) (v : α) :
    MapState α :=
  let r := getOrCreateCompositeKey s keys
  let s2 := setCompositeKey r.2 keys r.1
  { s2 with resultMap := jsMapSet s2.resultMap r.1 v }

theorem assertKeysValid_cons (k0 : PartialKey) (kt : List PartialKey) :
    assertKeysValid (k0 :: kt) = Except.ok () := by
  simp [assertKeysValid]

theorem set_eq_setOk {α : Type} (s : MapState α) (keys : List PartialKey) (v : α)
    (hk : keys ≠ []) : set s keys v = Except.ok (setOk s keys v) := by
  cases keys with
  | nil => exact absurd rfl hk
  | cons k0 kt => rfl

theorem get_cons {α : Type} (s : MapState α) (k0 : PartialKey) (kt : List PartialKey) :
    get s (k0 :: kt) = (match getCompositeKey s (k0 :: kt) with
      | none => Except.ok (none, s)
      | some ck => Except.ok (jsMapGet s.resultMap ck, s)) := rfl

theorem has_cons {α : Type} (s : MapState α) (k0 : PartialKey) (kt : List PartialKey) :
    has s (k0 :: kt) = (match getCompositeKey s (k0 :: kt) with
      | none => Except.ok (false, s)
      | some ck => Except.ok ((jsMapGet s.resultMap ck).isSome, s)) := rfl

theorem delete_cons {α : Type} (s : MapState α) (k0 : PartialKey) (kt : List PartialKey) :
    delete s (k0 :: kt) = (match getCompositeKey s (k0 :: kt) with
      | none => Except.ok (false, s)
      | some ck => Except.ok ((jsMapGet s.resultMap ck).isSome,
          { s with resultMap := jsMapDelete s.resultMap ck })) := rfl

theorem getOrCreate_ckm {α : Type} (s : MapState α) (keys : List PartialKey) :
    (getOrCreateCompositeKey s keys).2.compositeKeyMap = s.compositeKeyMap := by
  unfold getOrCreateCompositeKey
  cases getCompositeKey s keys <;> rfl

theorem getOrCreate_resultMap {α : Type} (s : MapState α) (keys : List PartialKey) :
    (getOrCreateCompositeKey s keys).2.resultMap = s.resultMap := by
  unfold getOrCreateCompositeKey
  cases getCompositeKey s keys <;> rfl

theorem getOrCreate_nextToken {α : Type} (s : MapState α) (keys : List PartialKey) :
    (getOrCreateCompositeKey s keys).2.nextToken = s.nextToken := by
  unfold getOrCreateCompositeKey
  cases getCompositeKey s keys <;> rfl

theorem getOrCreate_nextRegistry {α : Type} (s : MapState α) (keys : List PartialKey) :
    (getOrCreateCompositeKey s keys).2.nextRegistry = s.nextRegistry := by
  unfold getOrCreateCompositeKey
  cases getCompositeKey s keys <;> rfl

theorem getOrCreate_registries {α : Type} (s : MapState α) (keys : List PartialKey) :
    (getOrCreateCompositeKey s keys).2.registries = s.registries := by
  unfold getOrCreateCompositeKey
  cases getCompositeKey s keys <;> rfl

theorem getOrCreate_watches {α : Type} (s : MapState α) (keys : List PartialKey) :
    (getOrCreateCompositeKey s keys).2.watches = s.watches := by
  unfold getOrCreateCompositeKey
  cases getCompositeKey s keys <;> rfl

/-- The candidate sets fetched after the registration part of a `set` call:
each position's set has gained (at most) the written composite key. -/
theorem fetchCands_setOk {α : Type} (s : MapState α) (keys : List PartialKey)
    (v : α) :
    fetchCands (setOk s keys v) keys.length 0 keys =
      (fetchCands s keys.length 0 keys).map
        (fun l => jsSetAdd l (getOrCreateCompositeKey s keys).1) := by
  have h1 : (setOk s keys v).compositeKeyMap =
      (setCompositeKey (getOrCreateCompositeKey s keys).2 keys
        (getOrCreateCompositeKey s keys).1).compositeKeyMap := rfl
  rw [fetchCands_eq_of_ckm h1 keys.length keys 0]
  unfold setCompositeKey
  rw [fetchCands_registerLoop keys _ _ _ keys 0 (fun m k2 hm => by simpa using hm)]
  congr 1
  apply fetchCands_eq_of_ckm
  exact (getOrCreate_ckm s keys).symm ▸ rfl

/-- After `set`, resolving the same tuple yields exactly the composite key the
`set` call used (whether reused or freshly minted) — this holds despite the
`remove` quirk, because the pivot position is stable under the registration. -/
theorem getCompositeKey_setOk {α : Type} (s : MapState α) (keys : List PartialKey)
    (v : α) (hg : goodState s = true) (hk : keys ≠ []) :
    getCompositeKey (setOk s keys v) keys =
      some (getOrCreateCompositeKey s keys).1 := by
  cases keys with
  | nil => exact absurd rfl hk
  | cons k0 kt =>
      have hfetch_pre : fetchCands s (k0 :: kt).length 0 (k0 :: kt) =
          lookupCand s k0 (createPartialKeyPosition 0 (k0 :: kt).length)
            :: fetchCands s (k0 :: kt).length 1 kt := rfl
      have hfetch2 := fetchCands_setOk s (k0 :: kt) v
      rw [hfetch_pre, List.map_cons] at hfetch2
      have hhead := getCompositeKey_eq_head (setOk s (k0 :: kt) v) (k0 :: kt) _ _ hfetch2
      have hhead_pre := getCompositeKey_eq_head s (k0 :: kt) _ _ hfetch_pre
      cases hres : getCompositeKey s (k0 :: kt) with
      | some ck0 =>
          have hck1 : (getOrCreateCompositeKey s (k0 :: kt)).1 = ck0 := by
            unfold getOrCreateCompositeKey
            rw [hres]
          rw [hres] at hhead_pre
          obtain ⟨tl2, htl⟩ := List.head?_eq_some_iff.mp hhead_pre.symm
          have hcase : (getOrCreateCompositeKey s (k0 :: kt)).1 ∈
                minimumAux List.length
                  (lookupCand s k0 (createPartialKeyPosition 0 (k0 :: kt).length))
                  (lookupCand s k0
                    (createPartialKeyPosition 0 (k0 :: kt).length)).length
                  (fetchCands s (k0 :: kt).length 1 kt) ∨
              (∀ x ∈ lookupCand s k0 (createPartialKeyPosition 0 (k0 :: kt).length)
                  :: fetchCands s (k0 :: kt).length 1 kt,
                (getOrCreateCompositeKey s (k0 :: kt)).1 ∉ x) := by
            left
            rw [hck1, htl]
            exact List.mem_cons_self _ _
          rw [hhead, minimumAux_map_add _ _ _ _ rfl hcase, hck1, htl,
            jsSetAdd_of_mem (List.mem_cons_self _ _)]
          rfl
      | none =>
          have hck1 : (getOrCreateCompositeKey s (k0 :: kt)).1 =
              s.nextCompositeKey := by
            unfold getOrCreateCompositeKey
            rw [hres]
          rw [hres] at hhead_pre
          have hnil := List.head?_eq_none_iff.mp hhead_pre.symm
          have hcase : (getOrCreateCompositeKey s (k0 :: kt)).1 ∈
                minimumAux List.length
                  (lookupCand s k0 (createPartialKeyPosition 0 (k0 :: kt).length))
                  (lookupCand s k0
                    (createPartialKeyPosition 0 (k0 :: kt).length)).length
                  (fetchCands s (k0 :: kt).length 1 kt) ∨
              (∀ x ∈ lookupCand s k0 (createPartialKeyPosition 0 (k0 :: kt).length)
                  :: fetchCands s (k0 :: kt).length 1 kt,
                (getOrCreateCompositeKey s (k0 :: kt)).1 ∉ x) := by
            right
            intro x hx hmem
            rw [hck1] at hmem
            exact Nat.lt_irrefl _ (fetchCands_lt_of_goodState hg
              (k0 :: kt).length (k0 :: kt) 0 x (by rw [hfetch_pre]; exact hx)
              _ hmem)
          rw [hhead, minimumAux_map_add _ _ _ _ rfl hcase, hnil]
          simp [jsSetAdd]

/-- Round trip: reading back the tuple just written returns the value just
stored, in every well-formed state. -/
theorem get_setOk {α : Type} (s : MapState α) (keys : List PartialKey) (v : α)
    (hg : goodState s = true) (hk : keys ≠ []) :
    get (setOk s keys v) keys = Except.ok (some v, setOk s keys v) := by
  cases keys with
  | nil => exact absurd rfl hk
  | cons k0 kt =>
      rw [get_cons, getCompositeKey_setOk s (k0 :: kt) v hg hk]
      show Except.ok (jsMapGet (setOk s (k0 :: kt) v).resultMap
          (getOrCreateCompositeKey s (k0 :: kt)).1, setOk s (k0 :: kt) v)
        = Except.ok (some v, setOk s (k0 :: kt) v)
      have hres : (setOk s (k0 :: kt) v).resultMap =
          jsMapSet (setCompositeKey (getOrCreateCompositeKey s (k0 :: kt)).2
              (k0 :: kt) (getOrCreateCompositeKey s (k0 :: kt)).1).resultMap
            (getOrCreateCompositeKey s (k0 :: kt)).1 v := rfl
      rw [hres, jsMapGet_set_self]

theorem runCallback_noRegistry {α : Type} (s : MapState α)
    (collected : List PartialKey) (w : Watch)
    (h1 : jsMapGet s.regKey w.registry = none) :
    runCallback s collected w = s := by
  unfold runCallback
  rw [h1]

theorem runCallback_deadKey {α : Type} (s : MapState α)
    (collected : List PartialKey) (w : Watch) (ck : CompositeKey)
    (h1 : jsMapGet s.regKey w.registry = some ck)
    (h2 : w.data.partialKeyRef ∈ collected) :
    runCallback s collected w = s := by
  unfold runCallback
  rw [h1]
  simp [h2]

theorem runCallback_noPosMap {α : Type} (s : MapState α)
    (collected : List PartialKey) (w : Watch) (ck : CompositeKey)
    (h1 : jsMapGet s.regKey w.registry = some ck)
    (h2 : w.data.partialKeyRef ∉ collected)
    (h3 : jsMapGet s.compositeKeyMap w.data.partialKeyRef = none) :
    runCallback s collected w = s := by
  simp only [runCallback, h1, if_neg h2, h3]

theorem runCallback_noCands {α : Type} (s : MapState α)
    (collected : List PartialKey) (w : Watch) (ck : CompositeKey)
    (pm : List (PartialKeyPos × List CompositeKey))
    (h1 : jsMapGet s.regKey w.registry = some ck)
    (h2 : w.data.partialKeyRef ∉ collected)
    (h3 : jsMapGet s.compositeKeyMap w.data.partialKeyRef = some pm)
    (h4 : jsMapGet pm w.data.partialKeyPos = none) :
    runCallback s collected w = s := by
  simp only [runCallback, h1, if_neg h2, h3, h4]

/-- The successful path of the cleanup callback, as one record update. -/
theorem runCallback_run {α : Type} (s : MapState α)
    (collected : List PartialKey) (w : Watch) (ck : CompositeKey)
    (pm : List (PartialKeyPos × List CompositeKey)) (cks : List CompositeKey)
    (h1 : jsMapGet s.regKey w.registry = some ck)
    (h2 : w.data.partialKeyRef ∉ collected)
    (h3 : jsMapGet s.compositeKeyMap w.data.partialKeyRef = some pm)
    (h4 : jsMapGet pm w.data.partialKeyPos = some cks) :
    runCallback s collected w =
      { s with
          compositeKeyMap := jsMapSet s.compositeKeyMap w.data.partialKeyRef
            (jsMapSet pm w.data.partialKeyPos (jsSetDelete cks ck)),
          watches := s.watches.filter (fun w2 =>
            decide (¬(w2.registry = w.registry ∧
              w2.data.unregisterToken = w.data.unregisterToken))),
          registries := jsSetDelete s.registries w.registry } := by
  simp only [runCallback, h1, if_neg h2, h3, h4]

theorem all_jsMapSet {κ ν : Type} [DecidableEq κ] (p : κ × ν → Bool)
    (m : List (κ × ν)) (k : κ) (v : ν) (hm : m.all p = true)
    (hv : p (k, v) = true) : (jsMapSet m k v).all p = true := by
  induction m with
  | nil => simpa [jsMapSet]
  | cons q rest ih =>
      obtain ⟨k1, v1⟩ := q
      rw [List.all_cons] at hm
      obtain ⟨h1, h2⟩ := Bool.and_eq_true_iff.mp hm
      by_cases hk : k1 = k
      · subst hk
        simp [jsMapSet, hv, h2]
      · simp [jsMapSet, hk, h1, ih h2]

theorem all_jsSetAdd {χ : Type} [DecidableEq χ] (p : χ → Bool) (l : List χ) (x : χ)
    (hl : l.all p = true) (hx : p x = true) : (jsSetAdd l x).all p = true := by
  by_cases h : x ∈ l
  · rw [jsSetAdd_of_mem h]; exact hl
  · rw [jsSetAdd_of_not_mem h]
    simp [List.all_append, hl, hx]

theorem all_filter_sub {χ : Type} (p q : χ → Bool) (l : List χ)
    (hl : l.all p = true) : (l.filter q).all p = true := by
  rw [List.all_eq_true] at hl ⊢
  exact fun x hx => hl x (List.mem_of_mem_filter hx)

theorem jsMapGet_all {κ ν : Type} [DecidableEq κ] {p : κ × ν → Bool}
    {m : List (κ × ν)} {k : κ} {v : ν} (hm : m.all p = true)
    (h : jsMapGet m k = some v) : p (k, v) = true := by
  rw [List.all_eq_true] at hm
  exact hm (k, v) (mem_of_jsMapGet_eq_some h)

/-- Bound on every composite key stored in a candidate index. -/
def ckmBounded (m : List (PartialKey × List (PartialKeyPos × List CompositeKey)))
    (B : Nat) : Bool :=
  m.all (fun p => p.2.all (fun q => q.2.all (fun c => decide (c < B))))

theorem goodState_eq_ckmBounded {α : Type} (s : MapState α) :
    goodState s = ckmBounded s.compositeKeyMap s.nextCompositeKey := rfl

theorem ckmBounded_mono {m : List (PartialKey × List (PartialKeyPos × List CompositeKey))}
    {B B2 : Nat} (h : ckmBounded m B = true) (hB : B ≤ B2) :
    ckmBounded m B2 = true := by
  unfold ckmBounded at h ⊢
  rw [List.all_eq_true] at h ⊢
  intro p hp
  have h1 := h p hp
  rw [List.all_eq_true] at h1 ⊢
  intro q hq
  have h2 := h1 q hq
  rw [List.all_eq_true] at h2 ⊢
  intro c hc
  exact decide_eq_true (Nat.lt_of_lt_of_le (of_decide_eq_true (h2 c hc)) hB)

theorem ckmBounded_registerOne {α : Type} {s : MapState α} {B : Nat}
    (allKeys : List PartialKey) (ck : CompositeKey) (r i : Nat) (pk : PartialKey)
    (hm : ckmBounded s.compositeKeyMap B = true) (hck : ck < B) :
    ckmBounded (registerOne s allKeys ck r i pk).compositeKeyMap B = true := by
  have hpm : ((jsMapGet s.compositeKeyMap pk).getD []).all
      (fun q => q.2.all (fun c => decide (c < B))) = true := by
    cases h1 : jsMapGet s.compositeKeyMap pk with
    | none => rfl
    | some pm => exact jsMapGet_all hm h1
  have hcands : ((jsMapGet ((jsMapGet s.compositeKeyMap pk).getD [])
      (createPartialKeyPosition i allKeys.length)).getD []).all
      (fun c => decide (c < B)) = true := by
    cases h2 : jsMapGet ((jsMapGet s.compositeKeyMap pk).getD [])
        (createPartialKeyPosition i allKeys.length) with
    | none => rfl
    | some cl => exact jsMapGet_all hpm h2
  exact all_jsMapSet _ _ _ _ hm
    (all_jsMapSet _ _ _ _ hpm
      (all_jsSetAdd _ _ _ hcands (by simpa using hck)))

theorem ckmBounded_registerLoop {α : Type} {B : Nat}
    (allKeys : List PartialKey) (ck : CompositeKey) (r : Nat) (hck : ck < B) :
    ∀ (rest : List PartialKey) (i : Nat) (s : MapState α),
      ckmBounded s.compositeKeyMap B = true →
      ckmBounded (registerLoop allKeys ck r i rest s).compositeKeyMap B = true := by
  intro rest
  induction rest with
  | nil => intro i s hm; exact hm
  | cons pk tl ih =>
      intro i s hm
      exact ih (i + 1) _ (ckmBounded_registerOne allKeys ck r i pk hm hck)

theorem registerLoop_nextCompositeKey {α : Type} (allKeys : List PartialKey)
    (ck : CompositeKey) (r : Nat) :
    ∀ (rest : List PartialKey) (i : Nat) (s : MapState α),
      (registerLoop allKeys ck r i rest s).nextCompositeKey = s.nextCompositeKey :=
  fun rest i s => (registerLoop_frame allKeys ck r rest i s).2.2.2.1

theorem getCompositeKey_mem_fetch {α : Type} {s : MapState α}
    {keys : List PartialKey} {ck : CompositeKey}
    (h : getCompositeKey s keys = some ck) :
    ∃ x ∈ fetchCands s keys.length 0 keys, ck ∈ x := by
  unfold getCompositeKey at h
  match hfetch : fetchCands s keys.length 0 keys with
  | [] => rw [hfetch] at h; cases h
  | first :: rest =>
      rw [hfetch] at h
      simp only at h
      have hmem := List.mem_of_find?_eq_some h
      have hpiv : minimumAux List.length first first.length rest ∈ first :: rest :=
        minimumAux_mem rest first
      exact ⟨minimumAux List.length first first.length rest, hpiv, hmem⟩

/-- Resolved composite keys are bounded by the mint counter in well-formed
states. -/
theorem getCompositeKey_lt_of_goodState {α : Type} {s : MapState α}
    {keys : List PartialKey} {ck : CompositeKey} (hg : goodState s = true)
    (h : getCompositeKey s keys = some ck) : ck < s.nextCompositeKey := by
  obtain ⟨x, hx, hmem⟩ := getCompositeKey_mem_fetch h
  exact fetchCands_lt_of_goodState hg keys.length keys 0 x hx ck hmem

/-- `set` preserves the well-formedness invariant. -/
theorem goodState_setOk {α : Type} (s : MapState α) (keys : List PartialKey)
    (v : α) (hg : goodState s = true) : goodState (setOk s keys v) = true := by
  rw [goodState_eq_ckmBounded]
  have hnext : (setOk s keys v).nextCompositeKey =
      (getOrCreateCompositeKey s keys).2.nextCompositeKey := by
    show (setCompositeKey (getOrCreateCompositeKey s keys).2 keys
        (getOrCreateCompositeKey s keys).1).nextCompositeKey = _
    unfold setCompositeKey
    rw [registerLoop_nextCompositeKey]
  have hckm : (setOk s keys v).compositeKeyMap =
      (setCompositeKey (getOrCreateCompositeKey s keys).2 keys
        (getOrCreateCompositeKey s keys).1).compositeKeyMap := rfl
  rw [hnext, hckm]
  unfold setCompositeKey
  apply ckmBounded_registerLoop
  · -- the written key is below the (possibly bumped) counter
    cases hres : getCompositeKey s keys with
    | some ck0 =>
        unfold getOrCreateCompositeKey
        rw [hres]
        exact getCompositeKey_lt_of_goodState hg hres
    | none =>
        unfold getOrCreateCompositeKey
        rw [hres]
        simp
  · -- the pre-existing entries stay bounded
    show ckmBounded (getOrCreateCompositeKey s keys).2.compositeKeyMap _ = true
    rw [getOrCreate_ckm]
    cases hres : getCompositeKey s keys with
    | some ck0 =>
        unfold getOrCreateCompositeKey
        rw [hres]
        exact hg
    | none =>
        unfold getOrCreateCompositeKey
        rw [hres]
        exact ckmBounded_mono hg (Nat.le_succ _)

/-- The cleanup callback preserves the well-formedness invariant. -/
theorem goodState_runCallback {α : Type} (s : MapState α)
    (collected : List PartialKey) (w : Watch) (hg : goodState s = true) :
    goodState (runCallback s collected w) = true := by
  cases h1 : jsMapGet s.regKey w.registry with
  | none => rw [runCallback_noRegistry s collected w h1]; exact hg
  | some ck =>
      by_cases h2 : w.data.partialKeyRef ∈ collected
      · rw [runCallback_deadKey s collected w ck h1 h2]; exact hg
      · cases h3 : jsMapGet s.compositeKeyMap w.data.partialKeyRef with
        | none => rw [runCallback_noPosMap s collected w ck h1 h2 h3]; exact hg
        | some pm =>
            cases h4 : jsMapGet pm w.data.partialKeyPos with
            | none => rw [runCallback_noCands s collected w ck pm h1 h2 h3 h4]; exact hg
            | some cks =>
                rw [runCallback_run s collected w ck pm cks h1 h2 h3 h4]
                rw [goodState_eq_ckmBounded] at hg ⊢
                have hpm : pm.all (fun q => q.2.all (fun c =>
                    decide (c < s.nextCompositeKey))) = true := jsMapGet_all hg h3
                have hcks : cks.all (fun c =>
                    decide (c < s.nextCompositeKey)) = true := jsMapGet_all hpm h4
                exact all_jsMapSet _ _ _ _ hg
                  (all_jsMapSet _ _ _ _ hpm (all_filter_sub _ _ _ hcks))

/-- Each step of the collection loop preserves the invariant. -/
theorem goodState_collectLoop {α : Type} (collected : List PartialKey)
    (key : PartialKey) : ∀ (fuel : Nat) (s : MapState α),
    goodState s = true → goodState (collectLoop collected key fuel s) = true := by
  intro fuel
  induction fuel with
  | zero => intro s hg; exact hg
  | succ n ih =>
      intro s hg
      unfold collectLoop
      cases hfind : s.watches.find? (fun w => decide (w.target = key)) with
      | none => exact hg
      | some w => exact ih _ (goodState_runCallback _ collected w hg)

/-- Collecting a partial key preserves the invariant. -/
theorem goodState_collectKey {α : Type} (s : MapState α)
    (collected : List PartialKey) (key : PartialKey) (hg : goodState s = true) :
    goodState (collectKey s collected key) = true := by
  unfold collectKey
  apply goodState_collectLoop
  rw [goodState_eq_ckmBounded] at hg ⊢
  exact all_filter_sub _ _ _ hg

/-- The invariant holds for a freshly constructed map. -/
theorem goodState_emptyMap (α : Type) : goodState (emptyMap α) = true := rfl

/-- `delete` preserves the invariant (it only writes the value store). -/
theorem goodState_delete {α : Type} (s : MapState α) (keys : List PartialKey)
    (b : Bool) (s2 : MapState α) (hg : goodState s = true)
    (h : delete s keys = Except.ok (b, s2)) : goodState s2 = true := by
  cases keys with
  | nil => cases h
  | cons k0 kt =>
      rw [delete_cons] at h
      cases h1 : getCompositeKey s (k0 :: kt) with
      | none =>
          rw [h1] at h
          have h2 := Except.ok.inj h
          have h3 : s2 = s := congrArg Prod.snd h2.symm
          rw [h3]
          exact hg
      | some ck =>
          rw [h1] at h
          have h2 := Except.ok.inj h
          have h3 : s2 = { s with resultMap := jsMapDelete s.resultMap ck } :=
            congrArg Prod.snd h2.symm
          rw [h3]
          exact hg

/-- Unwrap a successful public-API state, with a fallback for the error case
(used only to build concrete scenario states, where the call succeeds). -/
def unwrapOk {α : Type} (e : Except Err (MapState α)) (d : MapState α) :
    MapState α :=
  match e with
  | Except.ok s => s
  | Except.error _ => d

/-- Scenario: a fresh map over `Nat` values; partial keys `0`, `1`, `2` play
the roles of three distinct caller objects `a`, `b`, `c`. -/
def state0 : MapState Nat := emptyMap Nat

/-- Scenario: after `set([a, b], 10)` on a fresh map. -/
def stateAB : MapState Nat := unwrapOk (set state0 [0, 1] 10) state0

/-- Scenario: after `set([a, b], 10); set([b, c], 20)`. -/
def stateABBC : MapState Nat := unwrapOk (set stateAB [1, 2] 20) stateAB

/-- Scenario: after `set([a, b], 10)`, the key `b` is garbage collected and
its finalization callbacks run. -/
def stateCollected : MapState Nat := collectKey stateAB [] 1

/-- Scenario: the state produced by `set([a, b], 5)` on a fresh map. -/
def stateTok : MapState Nat := setOk state0 [0, 1] 5

/-- Scenario: the state left by `delete([a, b])` on `stateAB`. -/
def stateDelAB : MapState Nat := { stateAB with resultMap := [] }

/-- C1: the claim states that lookups succeed only under exact match of
tuple length, order and per-position identity, and that after `set(T1, v)`
a lookup of any different tuple `T2` (with no live binding) is not-found.
The code violates this: after `set([a, b], 10)` and `set([b, c], 20)`, the
never-bound tuple `[a, c]` resolves and `get([a, c])` returns `10` (the
value bound to `[a, b]`), because the `remove` helper returns the
spliced-out pivot set instead of the remaining candidate sets, so the
membership check never consults the other positions' sets. -/
theorem C1_exact_match_violated :
    get stateABBC [0, 2] = Except.ok (some 10, stateABBC) := by rfl

/-- C2: the claim describes the resolver as testing each pivot handle for
membership in every other fetched set and failing with not-found when no
pivot handle is in all of them.  At the state after `set([a, b], 10);
set([b, c], 20)`, resolving `[a, c]` fetches the candidate sets `[[0], [1]]`
(handle `0` for position 1/2 of `a`, handle `1` for position 2/2 of `c`);
no handle is common to both sets, so the claimed algorithm must fail, yet
the code resolves handle `0` — it never tests the pivot handle against the
other fetched set. -/
theorem C2_resolver_skips_other_sets :
    fetchCands stateABBC 2 0 [0, 2] = [[0], [1]] ∧
    (0 : CompositeKey) ∉ ([1] : List CompositeKey) ∧
    getCompositeKey stateABBC [0, 2] = some 0 := by
  refine ⟨by rfl, by decide, by rfl⟩

/-- C7: the claim states that `delete(T)` returns true when and only when a
live binding for exactly `T` exists.  After `set([a, b], 10); set([b, c],
20)`, deleting the never-bound tuple `[a, c]` returns `true` (and destroys
the `[a, b]` binding), and a subsequent `delete([a, b])` — whose binding was
set and never directly deleted — returns `false`. -/
theorem C7_delete_wrong_binding :
    delete stateABBC [0, 2] =
      Except.ok (true, { stateABBC with resultMap := [(1, 20)] }) ∧
    delete { stateABBC with resultMap := [(1, 20)] } [0, 1] =
      Except.ok (false, { stateABBC with resultMap := [(1, 20)] }) := by
  refine ⟨by rfl, by rfl⟩

/-- C8: every public operation rejects an empty key tuple with the single
`InvalidArgument` error, synchronously and with no state change: the
embedding's error result carries no successor state — the validation throw
happens before any mutation, so the caller's state is untouched. -/
theorem C8_empty_tuple_invalid {α : Type} (s : MapState α) (v : α) :
    get s [] = Except.error Err.invalidArgument ∧
    set s [] v = Except.error Err.invalidArgument ∧
    has s [] = Except.error Err.invalidArgument ∧
    delete s [] = Except.error Err.invalidArgument := by
  exact ⟨rfl, rfl, rfl, rfl⟩

/-- C3 counterexample: the claim says all watches created for one binding
share a single cancellation token.  After a single `set([a, b], 5)`-style
call on a fresh map (`stateAB` holds exactly that one binding's watches),
the two watches carry different unregister tokens — the code mints one
token per key position, not one per binding. -/
theorem C3_not_single_token :
    ¬ ∀ w1 ∈ stateAB.watches, ∀ w2 ∈ stateAB.watches,
      w1.data.unregisterToken = w2.data.unregisterToken := by decide

/-- C4 counterexample: the claim says a coordinator is released from the
map's strong set only once all of the binding's watches are unregistered,
never while watches for other keys of the binding are pending.  After
`set([a, b], 10)` the registry `0` is held strongly; collecting `b` fires
the binding's first watch, after which the registry is gone from the strong
set while the watch targeting `a` (registry `0`, token `1`) is still
pending. -/
theorem C4_released_while_pending :
    stateAB.registries = [0] ∧
    stateCollected.registries = [] ∧
    stateCollected.watches = [⟨0, 0, ⟨1, (2, 2), 1⟩⟩] := by decide

theorem mem_jsSetAdd_self {χ : Type} [DecidableEq χ] (l : List χ) (x : χ) :
    x ∈ jsSetAdd l x := by
  by_cases h : x ∈ l
  · rw [jsSetAdd_of_mem h]; exact h
  · rw [jsSetAdd_of_not_mem h]; simp

theorem not_mem_jsSetDelete_self {χ : Type} [DecidableEq χ] (l : List χ) (x : χ) :
    x ∉ jsSetDelete l x := by
  intro h
  have := List.of_mem_filter h
  simp at this

/-- C5: round trip — for every non-empty tuple and every value, in any
well-formed (hence any reachable) map state, `get(T)` immediately after
`set(T, v)` succeeds and returns `v`.  This survives the `remove` quirk of
the resolver because the pivot position is unchanged by the registration
performed by `set`, so the resolver lands on the very handle `set` wrote. -/
theorem C5_round_trip {α : Type} (s : MapState α) (keys : List PartialKey)
    (v : α) (hg : goodState s = true) (hk : keys ≠ []) :
    ∃ s2, set s keys v = Except.ok s2 ∧
      get s2 keys = Except.ok (some v, s2) :=
  ⟨setOk s keys v, set_eq_setOk s keys v hk, get_setOk s keys v hg hk⟩

theorem C5_round_trip_witness :
    goodState stateAB = true ∧ ([2, 0] : List PartialKey) ≠ [] ∧
    ∃ s2, set stateAB [2, 0] (7 : Nat) = Except.ok s2 ∧
      get s2 [2, 0] = Except.ok (some 7, s2) :=
  ⟨by decide, by decide, C5_round_trip stateAB [2, 0] 7 (by decide) (by decide)⟩

/-- C6: for every non-empty tuple, `has(T)` answers `true` exactly when
`get(T)` returns an actual value rather than the not-found marker — both
operations resolve the same handle and consult the same value store, and
neither mutates the state. -/
theorem C6_has_iff_get {α : Type} (s : MapState α) (keys : List PartialKey)
    (hk : keys ≠ []) :
    has s keys = Except.ok (true, s) ↔
      ∃ v, get s keys = Except.ok (some v, s) := by
  cases keys with
  | nil => exact absurd rfl hk
  | cons k0 kt =>
      rw [has_cons, get_cons]
      cases h1 : getCompositeKey s (k0 :: kt) with
      | none => simp
      | some ck =>
          cases h2 : jsMapGet s.resultMap ck with
          | none => simp [h2]
          | some v0 => simp [h2]

theorem C6_has_iff_get_witness :
    ([0, 1] : List PartialKey) ≠ [] ∧
    (has stateAB [0, 1] = Except.ok (true, stateAB) ↔
      ∃ v, get stateAB [0, 1] = Except.ok (some v, stateAB)) :=
  ⟨by decide, C6_has_iff_get stateAB [0, 1] (by decide)⟩

/-- C9: frame conditions of the read-side operations — `get` and `has`
return the state unchanged, and a successful `delete` differs from the
input state at most in the value store, where it removes exactly the entry
of the resolved handle; the candidate index, the pending watches, the
strong registry set and all mint counters are untouched. -/
theorem C9_frame {α : Type} (s : MapState α) (keys : List PartialKey) :
    (∀ r s2, get s keys = Except.ok (r, s2) → s2 = s) ∧
    (∀ b s2, has s keys = Except.ok (b, s2) → s2 = s) ∧
    (∀ b s2, delete s keys = Except.ok (b, s2) →
      s2.compositeKeyMap = s.compositeKeyMap ∧
      s2.watches = s.watches ∧
      s2.registries = s.registries ∧
      s2.regKey = s.regKey ∧
      s2.nextCompositeKey = s.nextCompositeKey ∧
      s2.nextRegistry = s.nextRegistry ∧
      s2.nextToken = s.nextToken ∧
      ((getCompositeKey s keys = none ∧ s2.resultMap = s.resultMap) ∨
        (∃ ck, getCompositeKey s keys = some ck ∧
          s2.resultMap = jsMapDelete s.resultMap ck))) := by
  refine ⟨?_, ?_, ?_⟩
  · intro r s2 h
    cases keys with
    | nil => exact Except.noConfusion h
    | cons k0 kt =>
        rw [get_cons] at h
        cases h1 : getCompositeKey s (k0 :: kt) with
        | none =>
            rw [h1] at h
            exact (congrArg Prod.snd (Except.ok.inj h)).symm
        | some ck =>
            rw [h1] at h
            exact (congrArg Prod.snd (Except.ok.inj h)).symm
  · intro b s2 h
    cases keys with
    | nil => exact Except.noConfusion h
    | cons k0 kt =>
        rw [has_cons] at h
        cases h1 : getCompositeKey s (k0 :: kt) with
        | none =>
            rw [h1] at h
            exact (congrArg Prod.snd (Except.ok.inj h)).symm
        | some ck =>
            rw [h1] at h
            exact (congrArg Prod.snd (Except.ok.inj h)).symm
  · intro b s2 h
    cases keys with
    | nil => exact Except.noConfusion h
    | cons k0 kt =>
        rw [delete_cons] at h
        cases h1 : getCompositeKey s (k0 :: kt) with
        | none =>
            rw [h1] at h
            have h2 : s = s2 := congrArg Prod.snd (Except.ok.inj h)
            rw [← h2]
            exact ⟨rfl, rfl, rfl, rfl, rfl, rfl, rfl, Or.inl ⟨rfl, rfl⟩⟩
        | some ck =>
            rw [h1] at h
            have h2 : ({ s with resultMap := jsMapDelete s.resultMap ck } :
                MapState α) = s2 := congrArg Prod.snd (Except.ok.inj h)
            rw [← h2]
            exact ⟨rfl, rfl, rfl, rfl, rfl, rfl, rfl, Or.inr ⟨ck, rfl, rfl⟩⟩

theorem C9_frame_witness :
    delete stateAB [0, 1] = Except.ok (true, stateDelAB) ∧
    (stateDelAB.compositeKeyMap = stateAB.compositeKeyMap ∧
      stateDelAB.watches = stateAB.watches ∧
      stateDelAB.registries = stateAB.registries ∧
      stateDelAB.regKey = stateAB.regKey ∧
      stateDelAB.nextCompositeKey = stateAB.nextCompositeKey ∧
      stateDelAB.nextRegistry = stateAB.nextRegistry ∧
      stateDelAB.nextToken = stateAB.nextToken ∧
      ((getCompositeKey stateAB [0, 1] = none ∧
          stateDelAB.resultMap = stateAB.resultMap) ∨
        (∃ ck, getCompositeKey stateAB [0, 1] = some ck ∧
          stateDelAB.resultMap = jsMapDelete stateAB.resultMap ck))) :=
  ⟨by rfl, (C9_frame stateAB [0, 1]).2.2 true stateDelAB (by rfl)⟩

/-- C10: duplicate keys are accepted — validation rejects only the empty
tuple — and `set([a, a], v)` succeeds with `get([a, a])` returning `v` and
`has([a, a])` answering true; moreover a binding whose tuple repeats one
single object registers no finalization watches at all, because each
position's watch targets are the tuple's keys filtered for identity against
the position's own key. -/
theorem C10_duplicate_keys {α : Type} (s : MapState α) (a : PartialKey) (v : α)
    (hg : goodState s = true) :
    ∃ s2, set s [a, a] v = Except.ok s2 ∧
      get s2 [a, a] = Except.ok (some v, s2) ∧
      has s2 [a, a] = Except.ok (true, s2) ∧
      s2.watches = s.watches := by
  refine ⟨setOk s [a, a] v, set_eq_setOk s [a, a] v (by simp), ?_, ?_, ?_⟩
  · exact get_setOk s [a, a] v hg (by simp)
  · have hget := get_setOk s [a, a] v hg (by simp)
    rw [get_cons] at hget
    rw [has_cons]
    cases h1 : getCompositeKey (setOk s [a, a] v) [a, a] with
    | none =>
        rw [h1] at hget
        exact absurd (congrArg Prod.fst (Except.ok.inj hget)) (by simp)
    | some ck =>
        rw [h1] at hget
        have h2 := congrArg Prod.fst (Except.ok.inj hget)
        simp only at h2
        show Except.ok ((jsMapGet (setOk s [a, a] v).resultMap ck).isSome,
          setOk s [a, a] v) = Except.ok (true, setOk s [a, a] v)
        rw [h2]
        rfl
  · -- no watches: each position filters out identical keys
    have hfil : List.filter (fun o => decide (a ≠ o)) [a, a] = [] := by simp
    have hspec : ∀ i t, watchesSpec [a, a] (state0.nextRegistry) [a, a] i t =
        [] := by
      intro i t
      simp [watchesSpec, hfil]
    show (setCompositeKey (getOrCreateCompositeKey s [a, a]).2 [a, a]
        (getOrCreateCompositeKey s [a, a]).1).watches = s.watches
    unfold setCompositeKey
    rw [registerLoop_watches]
    have hw : ({ (getOrCreateCompositeKey s [a, a]).2 with
        nextRegistry := (getOrCreateCompositeKey s [a, a]).2.nextRegistry + 1,
        registries := jsSetAdd (getOrCreateCompositeKey s [a, a]).2.registries
          (getOrCreateCompositeKey s [a, a]).2.nextRegistry,
        regKey := jsMapSet (getOrCreateCompositeKey s [a, a]).2.regKey
          (getOrCreateCompositeKey s [a, a]).2.nextRegistry
          (getOrCreateCompositeKey s [a, a]).1 } : MapState α).watches
        = s.watches := getOrCreate_watches s [a, a]
    rw [hw]
    have : watchesSpec [a, a]
        (getOrCreateCompositeKey s [a, a]).2.nextRegistry [a, a] 0
        ({ (getOrCreateCompositeKey s [a, a]).2 with
          nextRegistry := (getOrCreateCompositeKey s [a, a]).2.nextRegistry + 1,
          registries := jsSetAdd (getOrCreateCompositeKey s [a, a]).2.registries
            (getOrCreateCompositeKey s [a, a]).2.nextRegistry,
          regKey := jsMapSet (getOrCreateCompositeKey s [a, a]).2.regKey
            (getOrCreateCompositeKey s [a, a]).2.nextRegistry
            (getOrCreateCompositeKey s [a, a]).1 } : MapState α).nextToken = [] := by
      simp [watchesSpec, hfil]
    rw [this, List.append_nil]

theorem C10_duplicate_keys_witness :
    goodState state0 = true ∧
    ∃ s2, set state0 [3, 3] (9 : Nat) = Except.ok s2 ∧
      get s2 [3, 3] = Except.ok (some 9, s2) ∧
      has s2 [3, 3] = Except.ok (true, s2) ∧
      s2.watches = state0.watches :=
  ⟨by decide, C10_duplicate_keys state0 3 9 (by decide)⟩

/-- C3 (amended): every `set(T, v)` call creates, for each position `i` of
`T` holding key `k` and for every other key of `T` distinct from `k` by
identity, one watch on that other key whose payload carries `k`'s weak
reference, `k`'s position descriptor, and a cancellation token that is
fresh per position — shared by the watches of that one position of the
binding, not by all of the binding's watches; and when a watch fires with
its payload key live and its bookkeeping present, exactly the pending
watches of the same registry carrying that watch's own token are
unregistered. -/
theorem C3_per_position_tokens {α : Type} (s : MapState α)
    (keys : List PartialKey) (v : α) (s2 : MapState α)
    (hset : set s keys v = Except.ok s2) :
    s2.watches = s.watches ++
      watchesSpec keys s.nextRegistry keys 0 s.nextToken ∧
    (∀ (sB : MapState α) (collected : List PartialKey) (w : Watch)
        (ck : CompositeKey) (pm : List (PartialKeyPos × List CompositeKey))
        (cks : List CompositeKey),
        jsMapGet sB.regKey w.registry = some ck →
        w.data.partialKeyRef ∉ collected →
        jsMapGet sB.compositeKeyMap w.data.partialKeyRef = some pm →
        jsMapGet pm w.data.partialKeyPos = some cks →
        (runCallback sB collected w).watches = sB.watches.filter (fun w2 =>
          decide (¬(w2.registry = w.registry ∧
            w2.data.unregisterToken = w.data.unregisterToken)))) := by
  constructor
  · cases keys with
    | nil => exact Except.noConfusion hset
    | cons k0 kt =>
        rw [set_eq_setOk s (k0 :: kt) v (by simp)] at hset
        have hs2 := (Except.ok.inj hset).symm
        subst hs2
        show (setCompositeKey (getOrCreateCompositeKey s (k0 :: kt)).2 (k0 :: kt)
            (getOrCreateCompositeKey s (k0 :: kt)).1).watches = _
        unfold setCompositeKey
        rw [registerLoop_watches]
        show (getOrCreateCompositeKey s (k0 :: kt)).2.watches ++
            watchesSpec (k0 :: kt)
              (getOrCreateCompositeKey s (k0 :: kt)).2.nextRegistry (k0 :: kt) 0
              (getOrCreateCompositeKey s (k0 :: kt)).2.nextToken = _
        rw [getOrCreate_watches, getOrCreate_nextToken, getOrCreate_nextRegistry]
  · intro sB collected w ck pm cks h1 h2 h3 h4
    rw [runCallback_run sB collected w ck pm cks h1 h2 h3 h4]

theorem C3_per_position_tokens_witness :
    set state0 [0, 1] (5 : Nat) = Except.ok stateTok ∧
    stateTok.watches = state0.watches ++
      watchesSpec [0, 1] state0.nextRegistry [0, 1] 0 state0.nextToken :=
  ⟨by rfl, (C3_per_position_tokens state0 [0, 1] 5 stateTok (by rfl)).1⟩

/-- C4 (amended): every coordinator created by a `set` call is placed in the
map's strong registry set, and it is removed from that set as soon as the
*first* watch of its binding fires with a live payload key and its
bookkeeping present — even though the binding's watches carrying a
different token (those registered for the binding's other keys) are still
pending at that moment. -/
theorem C4_released_on_first_fire {α : Type} (s : MapState α)
    (keys : List PartialKey) (v : α) (s2 : MapState α)
    (hset : set s keys v = Except.ok s2) :
    s.nextRegistry ∈ s2.registries ∧
    (∀ (sB : MapState α) (collected : List PartialKey) (w : Watch)
        (ck : CompositeKey) (pm : List (PartialKeyPos × List CompositeKey))
        (cks : List CompositeKey),
        jsMapGet sB.regKey w.registry = some ck →
        w.data.partialKeyRef ∉ collected →
        jsMapGet sB.compositeKeyMap w.data.partialKeyRef = some pm →
        jsMapGet pm w.data.partialKeyPos = some cks →
        w.registry ∉ (runCallback sB collected w).registries ∧
        (∀ w2 ∈ sB.watches, w2.registry = w.registry →
          w2.data.unregisterToken ≠ w.data.unregisterToken →
          w2 ∈ (runCallback sB collected w).watches)) := by
  constructor
  · cases keys with
    | nil => exact Except.noConfusion hset
    | cons k0 kt =>
        rw [set_eq_setOk s (k0 :: kt) v (by simp)] at hset
        have hs2 := (Except.ok.inj hset).symm
        subst hs2
        show s.nextRegistry ∈ (setCompositeKey
            (getOrCreateCompositeKey s (k0 :: kt)).2 (k0 :: kt)
            (getOrCreateCompositeKey s (k0 :: kt)).1).registries
        unfold setCompositeKey
        rw [(registerLoop_frame _ _ _ _ _ _).2.1]
        show s.nextRegistry ∈ jsSetAdd
          (getOrCreateCompositeKey s (k0 :: kt)).2.registries
          (getOrCreateCompositeKey s (k0 :: kt)).2.nextRegistry
        rw [getOrCreate_registries, getOrCreate_nextRegistry]
        exact mem_jsSetAdd_self _ _
  · intro sB collected w ck pm cks h1 h2 h3 h4
    rw [runCallback_run sB collected w ck pm cks h1 h2 h3 h4]
    refine ⟨not_mem_jsSetDelete_self _ _, ?_⟩
    intro w2 hw2 hreg hne
    exact List.mem_filter.mpr ⟨hw2, decide_eq_true (fun hand => hne hand.2)⟩

theorem C4_released_on_first_fire_witness :
    set state0 [0, 1] (5 : Nat) = Except.ok stateTok ∧
    state0.nextRegistry ∈ stateTok.registries :=
  ⟨by rfl, (C4_released_on_first_fire state0 [0, 1] 5 stateTok (by rfl)).1⟩

end CompositeWeakMap
